import Mathlib

/-!
Verification of the reactive-runtime specification for the leptos-tutorial
repository.  The repository's own code (src/main.rs) is UI glue over a
reactive framework; the spec describes the minimal reactive signal/effect
runtime those components rely on.  The runtime itself is not part of the
repository's sources, so it is modelled here from the spec; the component
logic that does live in src (the Select cycle update, the ButtonA/ButtonD
toggle update) is embedded directly from the source.
-/

namespace Reactive

/-- Modelled from the spec: expressions a computation evaluates over the
Signal Store.  `readS` is a tracked read (`Reader.get`), `peekS` an
untracked read (`Reader.peek` / `get_untracked`); the runtime code these
model is the framework's, absent from src. -/
inductive Expr where
  | lit : Int → Expr
  | readS : Nat → Expr
  | peekS : Nat → Expr
  | add : Expr → Expr → Expr
  | mul : Expr → Expr → Expr
deriving DecidableEq, Repr

/-- Modelled from the spec: a single step of a computation body, either a
pure evaluation of an expression (for its reads) or a `Writer.set`-style
write of an expression's value into a signal. -/
inductive Op where
  | eval : Expr → Op
  | write : Nat → Expr → Op
deriving DecidableEq, Repr

/-- Modelled from the spec: a computation is an effect (a list of operations,
as in `create_effect`) or a watcher over a source expression (`watch`). -/
inductive NBody where
  | effect : List Op → NBody
  | watcher : Expr → NBody
deriving DecidableEq, Repr

/-- Modelled from the spec: a node of the reactive graph; `deps` is the
dependency set rebuilt from scratch on every run, `stopped` the watcher
cancellation flag, `prev` the previous source value a watcher delivers. -/
structure Node where
  body : NBody
  deps : List Nat
  stopped : Bool
  prev : Option Int
deriving DecidableEq, Repr

/-- Modelled from the spec: the whole observable runtime state: the Signal
Store's values, the computations, a log of runs (node ids in run order) and
a log of watcher callback deliveries (watcher id, new value, previous). -/
structure RState where
  values : List Int
  nodes : List Node
  runLog : List Nat
  cbLog : List (Nat × Int × Option Int)
deriving DecidableEq, Repr

/-- Modelled from the spec: the fatal error taxonomy of the runtime. -/
inductive RError where
  | reactiveCycleDetected
  | useAfterDispose
deriving DecidableEq, Repr

/-- Evaluate an expression over the store, returning its value and the list
of signal ids it read TRACKED (peek reads record nothing). -/
def evalExpr (vals : List Int) : Expr → Int × List Nat
  | .lit n => (n, [])
  | .readS sid => (vals.getD sid 0, [sid])
  | .peekS sid => (vals.getD sid 0, [])
  | .add a b =>
      ((evalExpr vals a).1 + (evalExpr vals b).1,
        (evalExpr vals a).2 ++ (evalExpr vals b).2)
  | .mul a b =>
      ((evalExpr vals a).1 * (evalExpr vals b).1,
        (evalExpr vals a).2 ++ (evalExpr vals b).2)

/-- Append the elements of the second list not already present, keeping
order: the scheduler's dedup-by-identity queue discipline. -/
def dedupAppend : List Nat → List Nat → List Nat
  | q, [] => q
  | q, x :: xs => if q.contains x then dedupAppend q xs else dedupAppend (q ++ [x]) xs

/-- Update the `i`-th node in place. -/
def updateNode : List Node → Nat → (Node → Node) → List Node
  | [], _, _ => []
  | n :: rest, 0, f => f n :: rest
  | n :: rest, k + 1, f => n :: updateNode rest k f

/-- Ids of the nodes whose current dependency set contains `sid`. -/
def dependentsOf (nodes : List Node) (sid : Nat) : List Nat :=
  (List.range nodes.length).filter fun i =>
    match nodes.get? i with
    | some n => n.deps.contains sid
    | none => false

/-- The dependency set currently registered for node `i`. -/
def nodeDeps (st : RState) (i : Nat) : Option (List Nat) :=
  (st.nodes.get? i).map Node.deps

/-- A node is alive when it exists and has not been stopped. -/
def alive (st : RState) (i : Nat) : Bool :=
  match st.nodes.get? i with
  | some n => !n.stopped
  | none => false

/-- Modelled from the spec: `write(v)` with the default value-equality
policy: an observably equal value skips propagation; otherwise the value is
replaced and the current dependents are marked dirty. -/
def applyWrite (st : RState) (sid : Nat) (v : Int) : RState × List Nat :=
  if st.values.getD sid 0 == v then (st, [])
  else ({ st with values := st.values.set sid v }, dependentsOf st.nodes sid)

def setNodeDeps (st : RState) (i : Nat) (d : List Nat) : RState :=
  { st with nodes := updateNode st.nodes i fun n => { n with deps := d } }

/-- Run the operations of an effect body in order, rebuilding node `nid`'s
dependency set as tracked reads happen and accumulating, for writes, the
dependents to be enqueued for the NEXT round (never run recursively). -/
def runOpsAux : List Op → RState → Nat → List Nat → RState × List Nat
  | [], st, _, dirty => (st, dirty)
  | .eval e :: rest, st, nid, dirty =>
      runOpsAux rest
        (setNodeDeps st nid
          (dedupAppend ((nodeDeps st nid).getD []) (evalExpr st.values e).2))
        nid dirty
  | .write sid e :: rest, st, nid, dirty =>
      runOpsAux rest
        (applyWrite
          (setNodeDeps st nid
            (dedupAppend ((nodeDeps st nid).getD []) (evalExpr st.values e).2))
          sid (evalExpr st.values e).1).1
        nid
        (dedupAppend dirty
          (applyWrite
            (setNodeDeps st nid
              (dedupAppend ((nodeDeps st nid).getD []) (evalExpr st.values e).2))
            sid (evalExpr st.values e).1).2)

/-- Modelled from the spec: one delivery to a node.  Cancellation is checked
at DELIVERY time: a stopped node does nothing.  An effect clears its
dependency set, is logged as run, and executes its body; a watcher
re-evaluates its source, replaces its dependency set, and delivers
(new, previous) to its callback (recorded in the callback log). -/
def runNode (st : RState) (nid : Nat) : RState × List Nat :=
  match st.nodes.get? nid with
  | none => (st, [])
  | some n =>
    if n.stopped then (st, [])
    else
      match n.body with
      | .effect ops =>
          let st1 := setNodeDeps st nid []
          runOpsAux ops { st1 with runLog := st1.runLog ++ [nid] } nid []
      | .watcher src =>
          let st1 := setNodeDeps st nid (evalExpr st.values src).2
          ({ st1 with
              nodes :=
                updateNode st1.nodes nid fun m =>
                  { m with prev := some (evalExpr st.values src).1 }
              runLog := st1.runLog ++ [nid]
              cbLog := st1.cbLog ++ [(nid, (evalExpr st.values src).1, n.prev)] },
            [])

/-- Run one scheduler round: every dirtied node, in dirty-order, exactly
once; writes performed during the round produce the next round's queue. -/
def runRound : List Nat → RState → RState × List Nat
  | [], st => (st, [])
  | nid :: rest, st =>
      ((runRound rest (runNode st nid).1).1,
        dedupAppend (runNode st nid).2 (runRound rest (runNode st nid).1).2)

/-- Modelled from the spec: flush the dirty queue round by round with a
fixed re-run budget; an exhausted budget with work remaining fails with
`ReactiveCycleDetected` instead of looping forever. -/
def flush : Nat → List Nat → RState → Except RError RState
  | _, [], st => .ok st
  | 0, _ :: _, _ => .error .reactiveCycleDetected
  | b + 1, d :: ds, st =>
      flush b (runRound (d :: ds) st).2 (runRound (d :: ds) st).1

/-- Modelled from the spec: `createSignal` appends a fresh cell to the
Signal Store and returns its id. -/
def createSignal (v : Int) (st : RState) : Nat × RState :=
  (st.values.length, { st with values := st.values ++ [v] })

/-- Modelled from the spec: a top-level `set` outside any batch: an implicit
one-shot batch that applies the write and flushes its dependents. -/
def writeSig (budget : Nat) (sid : Nat) (v : Int) (st : RState) :
    Except RError RState :=
  flush budget (applyWrite st sid v).2 (applyWrite st sid v).1

/-- One write of a batch: apply it to the store and merge the dependents it
dirtied into the batch's queue, dedup by identity. -/
def batchStep (p : RState × List Nat) (w : Nat × Int) : RState × List Nat :=
  ((applyWrite p.1 w.1 w.2).1, dedupAppend p.2 (applyWrite p.1 w.1 w.2).2)

/-- Modelled from the spec: a batch applies every write first (dirty sets
merged with dedup, so a dependent is queued at most once per batch) and only
then flushes, so dependents observe all the batch's new values. -/
def batchWrites (budget : Nat) (ws : List (Nat × Int)) (st : RState) :
    Except RError RState :=
  flush budget (ws.foldl batchStep (st, ([] : List Nat))).2
    (ws.foldl batchStep (st, ([] : List Nat))).1

/-- A freshly created effect node with the given body: empty dependency
set, not stopped. -/
def freshEffectNode (ops : List Op) : Node :=
  ⟨.effect ops, [], false, none⟩

/-- Modelled from the spec: `create_effect` registers a new effect node and
runs it eagerly once, then flushes anything its own writes dirtied. -/
def createEffect (budget : Nat) (ops : List Op) (st : RState) :
    Except RError RState :=
  flush budget
    (runNode { st with nodes := st.nodes ++ [freshEffectNode ops] }
      st.nodes.length).2
    (runNode { st with nodes := st.nodes ++ [freshEffectNode ops] }
      st.nodes.length).1

/-- Modelled from the spec: `watch(source, callback, immediate)` evaluates
the source under the tracker to register dependencies, never runs the
callback eagerly unless `immediate`, and remembers the previous value. -/
def watch (src : Expr) (immediate : Bool) (st : RState) : Nat × RState :=
  let st1 :=
    { st with
      nodes :=
        st.nodes ++
          [⟨.watcher src, (evalExpr st.values src).2, false,
            some (evalExpr st.values src).1⟩] }
  if immediate then
    (st.nodes.length,
      { st1 with
        runLog := st1.runLog ++ [st.nodes.length]
        cbLog := st1.cbLog ++ [(st.nodes.length, (evalExpr st.values src).1, none)] })
  else (st.nodes.length, st1)

/-- Modelled from the spec: `stop()` on a watcher: set the cancellation
flag; checked at delivery time by `runNode`. -/
def stopWatch (wid : Nat) (st : RState) : RState :=
  { st with nodes := updateNode st.nodes wid fun n => { n with stopped := true } }

/-- An expression that performs only untracked reads (`peek`), never a
tracked `get`. -/
def exprUntracked : Expr → Bool
  | .lit _ => true
  | .readS _ => false
  | .peekS _ => true
  | .add a b => exprUntracked a && exprUntracked b
  | .mul a b => exprUntracked a && exprUntracked b

/-- An operation that is a pure evaluation reading only through `peek`. -/
def opUntracked : Op → Bool
  | .eval e => exprUntracked e
  | .write _ _ => false

/-- An operation that performs no write. -/
def opIsEval : Op → Bool
  | .eval _ => true
  | .write _ _ => false

/-- A node body that never writes a signal (a pure reader). -/
def bodyReader : NBody → Bool
  | .effect ops => ops.all opIsEval
  | .watcher _ => true

/-- Every computation in the state is a pure reader. -/
def readerOnlySt (st : RState) : Bool :=
  st.nodes.all fun n => bodyReader n.body

/-- Whether node `i`'s cancellation flag is set. -/
def stoppedAt (st : RState) (i : Nat) : Bool :=
  ((st.nodes.get? i).map Node.stopped).getD false

/-- Number of callback deliveries in a log that went to watcher `wid`. -/
def cbCount (wid : Nat) (log : List (Nat × Int × Option Int)) : Nat :=
  (log.filter fun e => e.1 == wid).length

/-- Modelled from the spec: context lookup in one scope's key-value pairs
(keys stand for type identities). -/
def lookupKey : List (Nat × Int) → Nat → Option Int
  | [], _ => none
  | (k, v) :: rest, key => if k == key then some v else lookupKey rest key

/-- Modelled from the spec: `use_context` searches the requesting scope and
then up the owning scope's ancestor chain; absence is `none`, not a fault. -/
def useContext : List (List (Nat × Int)) → Nat → Option Int
  | [], _ => none
  | s :: ancestors, key =>
      match lookupKey s key with
      | some v => some v
      | none => useContext ancestors key

/-- The empty runtime state. -/
def emptySt : RState :=
  { values := []
    nodes := []
    runLog := []
    cbLog := [] }

/-- Scenario state for the single-write claim: one signal holding 1, one
effect that reads it TWICE during a single evaluation (as the CreateEffect
effect reads signal `a` twice). -/
def c1St : RState :=
  { values := [1]
    nodes := [⟨.effect [.eval (.add (.readS 0) (.readS 0))], [0], false, none⟩]
    runLog := []
    cbLog := [] }

/-- Scenario state for batch glitch-freedom: signals A (id 0), B (id 1) and
an output cell (id 2); one effect C that reads both A and B and writes
their sum to the output, so the value C observed is visible. -/
def c2St (a0 b0 o0 : Int) : RState :=
  { values := [a0, b0, o0]
    nodes := [⟨.effect [.write 2 (.add (.readS 0) (.readS 1))], [0, 1], false, none⟩]
    runLog := []
    cbLog := [] }

/-- State the batch on `c2St` must reach: C ran exactly once, saw both new
values, and wrote their sum. -/
def c2After (va vb : Int) : RState :=
  { values := [va, vb, va + vb]
    nodes := [⟨.effect [.write 2 (.add (.readS 0) (.readS 1))], [0, 1], false, none⟩]
    runLog := [0]
    cbLog := [] }

/-- Reader-only witness state for the batch claim: signals A = 1 (id 0) and
B = 2 (id 1), and one effect C that reads both. -/
def c2RSt : RState :=
  { values := [1, 2]
    nodes := [⟨.effect [.eval (.add (.readS 0) (.readS 1))], [0, 1], false, none⟩]
    runLog := []
    cbLog := [] }

/-- Scenario state for the Watch component: a single signal initialized to
0 and no computations yet (src/main.rs line 275). -/
def c3Init : RState :=
  { values := [0]
    nodes := []
    runLog := []
    cbLog := [] }

/-- State after `watch(move || num.get(), callback, false)` of the Watch
component (src/main.rs lines 277-283). -/
def c3AfterWatch : RState := (watch (.readS 0) false c3Init).2

/-- Scenario state for the redundant-write claim: one signal created with
initial value 1 and two dependent reader computations. -/
def c5St : RState :=
  { values := [1]
    nodes := [⟨.effect [.eval (.readS 0)], [0], false, none⟩,
              ⟨.effect [.eval (.readS 0)], [0], false, none⟩]
    runLog := []
    cbLog := [] }

/-- State the first `write 2` on `c5St` must reach: both dependents ran
exactly once and the store holds 2. -/
def c5After : RState :=
  { values := [2]
    nodes := [⟨.effect [.eval (.readS 0)], [0], false, none⟩,
              ⟨.effect [.eval (.readS 0)], [0], false, none⟩]
    runLog := [0, 1]
    cbLog := [] }

/-- State reached after registering an effect whose body only peeks:
the node is appended with an EMPTY dependency set and logged as having run
eagerly once. -/
def c4After (st : RState) (ops : List Op) : RState :=
  { st with
    nodes := st.nodes ++ [freshEffectNode ops]
    runLog := st.runLog ++ [st.nodes.length] }

/-- Scenario state for delivery-time cancellation: watcher 0 over signal 0
is already stopped, watcher 1 over the same signal is still active, and
both are already in flight (scheduled) in the current batch. -/
def c7St : RState :=
  { values := [3]
    nodes := [⟨.watcher (.readS 0), [0], true, some 0⟩,
              ⟨.watcher (.readS 0), [0], false, some 0⟩]
    runLog := []
    cbLog := [] }

/-- State after flushing `c7St`'s in-flight queue: only the active watcher
1 was delivered; the stopped watcher 0 received nothing. -/
def c7After : RState :=
  { values := [3]
    nodes := [⟨.watcher (.readS 0), [0], true, some 0⟩,
              ⟨.watcher (.readS 0), [0], false, some 3⟩]
    runLog := [1]
    cbLog := [(1, 3, some 0)] }

/-- The self-triggering computation of the cycle claim: an effect that
reads signal 0 (tracked) and writes back its value plus one, so every run
of it re-dirties itself. -/
def c8Node : Node :=
  ⟨.effect [.write 0 (.add (.readS 0) (.lit 1))], [0], false, none⟩

/-- Scenario state family for the cycle claim, parameterized by the current
signal value and the run log accumulated so far. -/
def c8StL (n : Int) (log : List Nat) : RState :=
  { values := [n]
    nodes := [c8Node]
    runLog := log
    cbLog := [] }

/-- Initial scenario state for the cycle claim. -/
def c8St (n : Int) : RState := c8StL n []

end Reactive

namespace Tutorial

/-- The Select component's button update (src/main.rs lines 47-53): wrap 2
back to 0, otherwise increment. -/
def selectUpdate (n : Int) : Int :=
  if n == 2 then 0 else n + 1

/-- The ButtonA / ButtonD click update (src/main.rs lines 160 and 189):
replace the boolean with its negation. -/
def toggleUpdate (b : Bool) : Bool := !b

end Tutorial

namespace Reactive

theorem flush_nil (b : Nat) (st : RState) : flush b [] st = .ok st := by
  cases b <;> rfl

/-- C9: the Select component's state stays in {0, 1, 2}: starting from the
initial value 0, any number of iterations of the button's update keeps the
signal's value equal to 0, 1 or 2. -/
theorem selectUpdate_stays_in_range (k : Nat) :
    Tutorial.selectUpdate^[k] 0 = 0 ∨ Tutorial.selectUpdate^[k] 0 = 1 ∨
      Tutorial.selectUpdate^[k] 0 = 2 := by
  induction k with
  | zero => left; rfl
  | succ k ih =>
      rw [Function.iterate_succ_apply']
      rcases ih with h | h | h <;> rw [h] <;> decide

/-- C10: the ButtonA / ButtonD toggle update is an involution: applying it
twice returns any boolean to its original value, and one application always
changes the value. -/
theorem toggleUpdate_involutive (b : Bool) :
    Tutorial.toggleUpdate (Tutorial.toggleUpdate b) = b ∧
      Tutorial.toggleUpdate b ≠ b := by
  cases b <;> exact ⟨rfl, by decide⟩

/-- C3: the Watch component's watcher (immediate = false) over a signal
initialized to 0 never fires at creation; after `set 1` the callback is
delivered exactly once with new value 1 and previous value `some 0`; after
`stop` a further `set 2` delivers nothing. -/
theorem watch_component_scenario :
    c3AfterWatch.cbLog = [] ∧
    (writeSig 1 0 1 c3AfterWatch).map RState.cbLog = .ok [(0, 1, some 0)] ∧
    (((writeSig 1 0 1 c3AfterWatch).map (stopWatch 0)).bind
        (writeSig 1 0 2)).map RState.cbLog = .ok [(0, 1, some 0)] :=
  ⟨rfl, rfl, rfl⟩

/-- C5: under the default value-equality policy a redundant write skips
propagation: writing a signal's current value back is a complete no-op for
any state, and in the concrete scenario (signal created with 1, two
dependents) `write 2` runs every dependent exactly once while a second
`write 2` changes nothing at all. -/
theorem redundant_write_skips_propagation :
    (∀ (st : RState) (sid b : Nat),
        writeSig b sid (st.values.getD sid 0) st = .ok st) ∧
    writeSig 1 0 2 c5St = .ok c5After ∧
    c5After.runLog = [0, 1] ∧
    writeSig 1 0 2 c5After = .ok c5After := by
  refine ⟨?_, rfl, rfl, rfl⟩
  intro st sid b
  have h : (st.values.getD sid 0 == st.values.getD sid 0) = true := by simp
  simp only [writeSig, applyWrite, h, if_pos]
  exact flush_nil b st

/-- C6: `use_context` returns a value exactly when one was provided in the
requesting scope or one of its ancestors, searching up the ancestor chain,
and returns `none` when no ancestor ever provided one (as in the
App → Layout → ButtonD chain, where only App provided the key). -/
theorem useContext_ancestor_chain :
    (∀ (chain : List (List (Nat × Int))) (key : Nat),
        (useContext chain key).isSome =
          chain.any fun s => (lookupKey s key).isSome) ∧
    useContext [[], [], [(5, 1)]] 5 = some 1 ∧
    useContext [[], [], []] 5 = none := by
  refine ⟨?_, rfl, rfl⟩
  intro chain key
  induction chain with
  | nil => rfl
  | cons s anc ih =>
      simp only [useContext, List.any_cons]
      cases h : lookupKey s key with
      | none => simp [h, ih]
      | some v => simp [h]

end Reactive

namespace Reactive

theorem runNode_c8 (n : Int) (log : List Nat) :
    runNode (c8StL n log) 0 = (c8StL (n + 1) (log ++ [0]), [0]) := by
  have h : (n == n + 1) = false := by
    simp only [beq_eq_false_iff_ne, ne_eq]
    omega
  simp [runNode, c8StL, c8Node, setNodeDeps, updateNode, runOpsAux, nodeDeps,
    evalExpr, dedupAppend, applyWrite, h, dependentsOf]

theorem runRound_c8 (n : Int) (log : List Nat) :
    runRound [0] (c8StL n log) = (c8StL (n + 1) (log ++ [0]), [0]) := by
  simp [runRound, runNode_c8, dedupAppend]

theorem flush_c8 (b : Nat) : ∀ (n : Int) (log : List Nat),
    flush b [0] (c8StL n log) = .error .reactiveCycleDetected := by
  induction b with
  | zero => intro n log; rfl
  | succ b ih =>
      intro n log
      simp only [flush, runRound_c8]
      exact ih (n + 1) (log ++ [0])

/-- C8: a computation that writes a signal it itself depends on never
recurses within its own synchronous run: the write only enqueues the
dependent for the next round, and the cyclic self-triggering it causes is
bounded: for EVERY re-run budget the triggering write fails with
`ReactiveCycleDetected` instead of looping forever. -/
theorem cyclic_self_trigger_bounded :
    (∀ n : Int, (runNode (c8St n) 0).2 = [0]) ∧
    (∀ (b : Nat) (n : Int),
        writeSig b 0 (n + 1) (c8St n) = .error .reactiveCycleDetected) := by
  constructor
  · intro n
    rw [c8St, runNode_c8]
  · intro b n
    have h : (n == n + 1) = false := by
      simp only [beq_eq_false_iff_ne, ne_eq]
      omega
    have h2 : applyWrite (c8St n) 0 (n + 1) = (c8StL (n + 1) [], [0]) := by
      simp [applyWrite, c8St, c8StL, c8Node, h, dependentsOf]
      rfl
    simp only [writeSig, h2]
    exact flush_c8 b (n + 1) []

end Reactive

namespace Reactive

/-- Concrete illustration of batch glitch-freedom: a two-write batch over
the sum-writing effect of `c2St` runs it exactly once (run log [0]) and the
sum it wrote is of the two new values, never of a partially-updated
intermediate state. -/
theorem batch_glitch_free (a0 b0 o0 va vb : Int) (h1 : a0 ≠ va) (h2 : b0 ≠ vb) :
    batchWrites 2 [(0, va), (1, vb)] (c2St a0 b0 o0) = .ok (c2After va vb) ∧
    (c2After va vb).runLog = [0] ∧
    (c2After va vb).values = [va, vb, va + vb] := by
  refine ⟨?_, rfl, rfl⟩
  have hb1 : (a0 == va) = false := by
    simp only [beq_eq_false_iff_ne, ne_eq]
    exact h1
  have hb2 : (b0 == vb) = false := by
    simp only [beq_eq_false_iff_ne, ne_eq]
    exact h2
  by_cases hc : o0 = va + vb
  · subst hc
    simp [batchWrites, batchStep, applyWrite, c2St, c2After, hb1, hb2, flush,
      runRound, runNode, runOpsAux, setNodeDeps, updateNode, nodeDeps,
      evalExpr, dedupAppend, dependentsOf]
  · have hbc : (o0 == va + vb) = false := by
      simp only [beq_eq_false_iff_ne, ne_eq]
      exact hc
    simp [batchWrites, batchStep, applyWrite, c2St, c2After, hb1, hb2, hbc,
      flush, runRound, runNode, runOpsAux, setNodeDeps, updateNode, nodeDeps,
      evalExpr, dedupAppend, dependentsOf]

/-- The concrete batch illustration at signals A = 1, B = 2, output 0,
batch writes 10 and 20: C runs once and writes 30. -/
theorem batch_glitch_free_witness :
    batchWrites 2 [(0, 10), (1, 20)] (c2St 1 2 0) = .ok (c2After 10 20) ∧
    (c2After 10 20).runLog = [0] ∧
    (c2After 10 20).values = [10, 20, 10 + 20] :=
  batch_glitch_free 1 2 0 10 20 (by decide) (by decide)

end Reactive

namespace Reactive

/-- The run-invariant signature of a node: its body and cancellation flag,
which no scheduler run ever changes. -/
def nodeSig (n : Node) : NBody × Bool := (n.body, n.stopped)

theorem updateNode_length (l : List Node) (i : Nat) (f : Node → Node) :
    (updateNode l i f).length = l.length := by
  induction l generalizing i with
  | nil => rfl
  | cons n rest ih =>
      cases i with
      | zero => rfl
      | succ i => simp [updateNode, ih]

theorem updateNode_get? (l : List Node) (i j : Nat) (f : Node → Node) :
    (updateNode l i f).get? j = if j = i then (l.get? i).map f else l.get? j := by
  induction l generalizing i j with
  | nil => simp [updateNode]
  | cons n rest ih =>
      cases i with
      | zero =>
          cases j with
          | zero => simp [updateNode]
          | succ j => simp [updateNode]
      | succ i =>
          cases j with
          | zero => simp [updateNode]
          | succ j => simpa [updateNode] using ih i j

theorem mem_dedupAppend (ys : List Nat) : ∀ (q : List Nat) (x : Nat),
    x ∈ dedupAppend q ys ↔ x ∈ q ∨ x ∈ ys := by
  induction ys with
  | nil => intro q x; simp [dedupAppend]
  | cons y ys ih =>
      intro q x
      simp only [dedupAppend]
      split
      · rename_i h
        have hy : y ∈ q := by simpa using h
        rw [ih]
        constructor
        · rintro (h1 | h1)
          · exact Or.inl h1
          · exact Or.inr (List.mem_cons_of_mem y h1)
        · rintro (h1 | h1)
          · exact Or.inl h1
          · rcases List.mem_cons.mp h1 with h2 | h2
            · exact Or.inl (h2 ▸ hy)
            · exact Or.inr h2
      · rw [ih]
        simp [List.mem_append, List.mem_cons]
        tauto

theorem nodup_dedupAppend (ys : List Nat) : ∀ q : List Nat, q.Nodup →
    (dedupAppend q ys).Nodup := by
  induction ys with
  | nil => intro q h; exact h
  | cons y ys ih =>
      intro q h
      simp only [dedupAppend]
      split
      · exact ih q h
      · rename_i hc
        have hy : y ∉ q := by simpa using hc
        apply ih
        simp [List.nodup_append, h, hy]

theorem nodup_dependentsOf (nodes : List Node) (sid : Nat) :
    (dependentsOf nodes sid).Nodup :=
  (List.nodup_range _).filter _

theorem mem_dependentsOf (nodes : List Node) (sid i : Nat) :
    i ∈ dependentsOf nodes sid ↔
      ∃ n, nodes.get? i = some n ∧ n.deps.contains sid = true := by
  simp only [dependentsOf, List.mem_filter, List.mem_range]
  constructor
  · rintro ⟨hlt, hp⟩
    cases hg : nodes.get? i with
    | none => rw [hg] at hp; simp at hp
    | some n =>
        rw [hg] at hp
        exact ⟨n, rfl, hp⟩
  · rintro ⟨n, hg, hc⟩
    refine ⟨(List.get?_eq_some.mp hg).1, ?_⟩
    rw [hg]
    exact hc

theorem applyWrite_nodes (st : RState) (sid : Nat) (v : Int) :
    (applyWrite st sid v).1.nodes = st.nodes := by
  rw [applyWrite]
  split <;> rfl

theorem applyWrite_runLog (st : RState) (sid : Nat) (v : Int) :
    (applyWrite st sid v).1.runLog = st.runLog := by
  rw [applyWrite]
  split <;> rfl

theorem applyWrite_cbLog (st : RState) (sid : Nat) (v : Int) :
    (applyWrite st sid v).1.cbLog = st.cbLog := by
  rw [applyWrite]
  split <;> rfl

theorem applyWrite_dirty (st : RState) (sid : Nat) (v : Int) :
    (applyWrite st sid v).2 = [] ∨
      (applyWrite st sid v).2 = dependentsOf st.nodes sid := by
  rw [applyWrite]
  split
  · exact Or.inl rfl
  · exact Or.inr rfl

end Reactive

namespace Reactive

theorem setNodeDeps_get?_ne (st : RState) (i d j) (h : j ≠ i) :
    (setNodeDeps st i d).nodes.get? j = st.nodes.get? j := by
  show (updateNode st.nodes i _).get? j = _
  rw [updateNode_get?]
  exact if_neg h

theorem setNodeDeps_sig (st : RState) (i d j) :
    ((setNodeDeps st i d).nodes.get? j).map nodeSig =
      (st.nodes.get? j).map nodeSig := by
  show ((updateNode st.nodes i _).get? j).map nodeSig = _
  rw [updateNode_get?]
  split
  · rename_i h
    subst h
    cases st.nodes.get? j <;> simp [nodeSig]
  · rfl

theorem runOpsAux_runLog (ops : List Op) : ∀ (st : RState) (nid : Nat) (dirty : List Nat),
    (runOpsAux ops st nid dirty).1.runLog = st.runLog := by
  induction ops with
  | nil => intros; rfl
  | cons op rest ih =>
      intro st nid dirty
      cases op with
      | eval e => rw [runOpsAux, ih]; rfl
      | write sid e => rw [runOpsAux, ih, applyWrite_runLog]; rfl

theorem runOpsAux_cbLog (ops : List Op) : ∀ (st : RState) (nid : Nat) (dirty : List Nat),
    (runOpsAux ops st nid dirty).1.cbLog = st.cbLog := by
  induction ops with
  | nil => intros; rfl
  | cons op rest ih =>
      intro st nid dirty
      cases op with
      | eval e => rw [runOpsAux, ih]; rfl
      | write sid e => rw [runOpsAux, ih, applyWrite_cbLog]; rfl

theorem runOpsAux_get?_ne (ops : List Op) : ∀ (st : RState) (nid : Nat) (dirty : List Nat)
    (m : Nat), m ≠ nid →
    (runOpsAux ops st nid dirty).1.nodes.get? m = st.nodes.get? m := by
  induction ops with
  | nil => intros; rfl
  | cons op rest ih =>
      intro st nid dirty m hm
      cases op with
      | eval e => rw [runOpsAux, ih _ _ _ _ hm, setNodeDeps_get?_ne _ _ _ _ hm]
      | write sid e =>
          rw [runOpsAux, ih _ _ _ _ hm, applyWrite_nodes,
            setNodeDeps_get?_ne _ _ _ _ hm]

theorem runOpsAux_sig (ops : List Op) : ∀ (st : RState) (nid : Nat) (dirty : List Nat)
    (j : Nat),
    ((runOpsAux ops st nid dirty).1.nodes.get? j).map nodeSig =
      (st.nodes.get? j).map nodeSig := by
  induction ops with
  | nil => intros; rfl
  | cons op rest ih =>
      intro st nid dirty j
      cases op with
      | eval e => rw [runOpsAux, ih, setNodeDeps_sig]
      | write sid e => rw [runOpsAux, ih, applyWrite_nodes, setNodeDeps_sig]

theorem runOpsAux_eval_dirty (ops : List Op) (h : ops.all opIsEval = true) :
    ∀ (st : RState) (nid : Nat) (dirty : List Nat),
    (runOpsAux ops st nid dirty).2 = dirty := by
  induction ops with
  | nil => intros; rfl
  | cons op rest ih =>
      intro st nid dirty
      cases op with
      | eval e =>
          rw [List.all_cons] at h
          exact ih (Bool.and_elim_right h) _ _ _
      | write sid e =>
          rw [List.all_cons] at h
          simp [opIsEval] at h

end Reactive

namespace Reactive

theorem runOpsAux_eval_values (ops : List Op) (h : ops.all opIsEval = true) :
    ∀ (st : RState) (nid : Nat) (dirty : List Nat),
    (runOpsAux ops st nid dirty).1.values = st.values := by
  induction ops with
  | nil => intros; rfl
  | cons op rest ih =>
      intro st nid dirty
      cases op with
      | eval e =>
          rw [List.all_cons] at h
          rw [runOpsAux, ih (Bool.and_elim_right h)]
          rfl
      | write sid e =>
          rw [List.all_cons] at h
          simp [opIsEval] at h

theorem alive_eq_of_sig (s1 s2 : RState) (j : Nat)
    (h : (s1.nodes.get? j).map nodeSig = (s2.nodes.get? j).map nodeSig) :
    alive s1 j = alive s2 j := by
  rw [alive, alive]
  cases h1 : s1.nodes.get? j with
  | none =>
      rw [h1] at h
      cases h2 : s2.nodes.get? j with
      | none => rfl
      | some m => rw [h2] at h; simp at h
  | some n =>
      rw [h1] at h
      cases h2 : s2.nodes.get? j with
      | none => rw [h2] at h; simp at h
      | some m =>
          rw [h2] at h
          simp only [Option.map_some', Option.some.injEq, nodeSig,
            Prod.mk.injEq] at h
          simp [h.2]

theorem stoppedAt_eq_of_sig (s1 s2 : RState) (j : Nat)
    (h : (s1.nodes.get? j).map nodeSig = (s2.nodes.get? j).map nodeSig) :
    stoppedAt s1 j = stoppedAt s2 j := by
  simp only [stoppedAt]
  cases h1 : s1.nodes.get? j with
  | none =>
      rw [h1] at h
      cases h2 : s2.nodes.get? j with
      | none => rfl
      | some m => rw [h2] at h; simp at h
  | some n =>
      rw [h1] at h
      cases h2 : s2.nodes.get? j with
      | none => rw [h2] at h; simp at h
      | some m =>
          rw [h2] at h
          simp only [Option.map_some', Option.some.injEq, nodeSig,
            Prod.mk.injEq] at h
          simp [h.2]

theorem readerOnly_of_sig (s1 s2 : RState)
    (h : ∀ j, (s1.nodes.get? j).map nodeSig = (s2.nodes.get? j).map nodeSig)
    (hro : readerOnlySt s2 = true) : readerOnlySt s1 = true := by
  rw [readerOnlySt, List.all_eq_true] at *
  intro n hn
  obtain ⟨j, hj⟩ := List.mem_iff_get?.mp hn
  have hs := h j
  rw [hj] at hs
  cases hg : s2.nodes.get? j with
  | none => rw [hg] at hs; simp at hs
  | some m =>
      rw [hg] at hs
      simp only [Option.map_some', Option.some.injEq, nodeSig,
        Prod.mk.injEq] at hs
      rw [hs.1]
      exact hro m (List.get?_mem hg)

end Reactive

namespace Reactive

theorem updateNode_sig (l : List Node) (i j : Nat) (f : Node → Node)
    (hf : ∀ n, nodeSig (f n) = nodeSig n) :
    ((updateNode l i f).get? j).map nodeSig = (l.get? j).map nodeSig := by
  rw [updateNode_get?]
  split
  · rename_i h
    subst h
    cases l.get? j <;> simp [hf]
  · rfl

theorem runNode_none (st : RState) (i : Nat) (hg : st.nodes.get? i = none) :
    runNode st i = (st, []) := by
  rw [runNode, hg]

theorem runNode_stopped (st : RState) (i : Nat) (n : Node)
    (hg : st.nodes.get? i = some n) (hs : n.stopped = true) :
    runNode st i = (st, []) := by
  rw [runNode, hg]
  simp [hs]

theorem runNode_effect (st : RState) (i : Nat) (n : Node) (ops : List Op)
    (hg : st.nodes.get? i = some n) (hs : n.stopped = false)
    (hb : n.body = .effect ops) :
    runNode st i =
      runOpsAux ops
        { setNodeDeps st i [] with runLog := st.runLog ++ [i] } i [] := by
  rw [runNode, hg]
  simp [hs, hb]
  rfl

theorem runNode_watcher (st : RState) (i : Nat) (n : Node) (src : Expr)
    (hg : st.nodes.get? i = some n) (hs : n.stopped = false)
    (hb : n.body = .watcher src) :
    runNode st i =
      ({ values := st.values
         nodes :=
           updateNode (setNodeDeps st i (evalExpr st.values src).2).nodes i
             fun m => { m with prev := some (evalExpr st.values src).1 }
         runLog := st.runLog ++ [i]
         cbLog := st.cbLog ++ [(i, (evalExpr st.values src).1, n.prev)] },
        []) := by
  rw [runNode, hg]
  simp [hs, hb]
  exact ⟨rfl, rfl, rfl⟩

end Reactive

namespace Reactive

theorem runNode_reader (st : RState) (i : Nat) (hro : readerOnlySt st = true) :
    (runNode st i).2 = [] ∧
    (runNode st i).1.runLog = st.runLog ++ (if alive st i then [i] else []) ∧
    (∀ j, ((runNode st i).1.nodes.get? j).map nodeSig =
      (st.nodes.get? j).map nodeSig) ∧
    (runNode st i).1.values = st.values := by
  cases hg : st.nodes.get? i with
  | none =>
      rw [runNode_none st i hg]
      have ha : alive st i = false := by rw [alive, hg]
      rw [ha]
      exact ⟨rfl, by simp, fun j => rfl, rfl⟩
  | some n =>
      by_cases hs : n.stopped = true
      · rw [runNode_stopped st i n hg hs]
        have ha : alive st i = false := by rw [alive, hg]; simp [hs]
        rw [ha]
        exact ⟨rfl, by simp, fun j => rfl, rfl⟩
      · have hs' : n.stopped = false := by simpa using hs
        have ha : alive st i = true := by rw [alive, hg]; simp [hs']
        rw [ha]
        cases hb : n.body with
        | effect ops =>
            rw [runNode_effect st i n ops hg hs' hb]
            have hops : ops.all opIsEval = true := by
              have hbn := (List.all_eq_true.mp hro) n (List.get?_mem hg)
              rw [hb] at hbn
              simpa [bodyReader] using hbn
            refine ⟨runOpsAux_eval_dirty ops hops _ _ _, ?_, ?_, ?_⟩
            · rw [runOpsAux_runLog]; simp
            · intro j
              rw [runOpsAux_sig]
              exact setNodeDeps_sig st i [] j
            · exact runOpsAux_eval_values ops hops _ _ _
        | watcher src =>
            rw [runNode_watcher st i n src hg hs' hb]
            refine ⟨rfl, rfl, ?_, rfl⟩
            intro j
            have h1 : ∀ m : Node,
                nodeSig { m with prev := some (evalExpr st.values src).1 } =
                  nodeSig m := fun m => rfl
            calc ((updateNode (setNodeDeps st i (evalExpr st.values src).2).nodes i
                    fun m => { m with prev := some (evalExpr st.values src).1 }).get?
                      j).map nodeSig
                = ((setNodeDeps st i (evalExpr st.values src).2).nodes.get? j).map
                    nodeSig := updateNode_sig _ i j _ h1
              _ = (st.nodes.get? j).map nodeSig := setNodeDeps_sig st i _ j

theorem runRound_reader (l : List Nat) : ∀ (st : RState),
    readerOnlySt st = true →
    (runRound l st).2 = [] ∧
    (runRound l st).1.runLog = st.runLog ++ l.filter (fun i => alive st i) ∧
    (∀ j, ((runRound l st).1.nodes.get? j).map nodeSig =
      (st.nodes.get? j).map nodeSig) ∧
    (runRound l st).1.values = st.values := by
  induction l with
  | nil => intro st hro; exact ⟨rfl, by simp [runRound], fun j => rfl, rfl⟩
  | cons i rest ih =>
      intro st hro
      obtain ⟨hd1, hlog1, hsig1, hv1⟩ := runNode_reader st i hro
      have hro1 : readerOnlySt (runNode st i).1 = true :=
        readerOnly_of_sig _ _ hsig1 hro
      obtain ⟨hd2, hlog2, hsig2, hv2⟩ := ih (runNode st i).1 hro1
      have halive1 : ∀ j, alive (runNode st i).1 j = alive st j :=
        fun j => alive_eq_of_sig _ _ j (hsig1 j)
      refine ⟨?_, ?_, ?_, ?_⟩
      · show dedupAppend (runNode st i).2 (runRound rest (runNode st i).1).2 = []
        rw [hd1, hd2]
        rfl
      · show (runRound rest (runNode st i).1).1.runLog = _
        rw [hlog2, hlog1]
        rw [List.filter_congr (fun x _ => halive1 x)]
        rw [List.append_assoc]
        congr 1
        rw [List.filter_cons]
        cases ha : alive st i <;> simp [ha]
      · intro j
        show ((runRound rest (runNode st i).1).1.nodes.get? j).map nodeSig = _
        rw [hsig2 j, hsig1 j]
      · show (runRound rest (runNode st i).1).1.values = _
        rw [hv2, hv1]

end Reactive

namespace Reactive

/-- C1: in a state whose computations are all pure readers, a single write
of a changed value to signal S triggers exactly one re-run of every live
computation C depending on S (its run-log count goes up by exactly one),
even when C reads S through multiple paths in a single evaluation. -/
theorem single_write_single_rerun (st : RState) (sid nid : Nat) (v : Int)
    (b : Nat)
    (hro : readerOnlySt st = true)
    (halive : alive st nid = true)
    (hdep : ∃ n, st.nodes.get? nid = some n ∧ n.deps.contains sid = true)
    (hchg : (st.values.getD sid 0 == v) = false) :
    ∃ st', writeSig (b + 1) sid v st = .ok st' ∧
      st'.runLog.count nid = st.runLog.count nid + 1 := by
  have happ : applyWrite st sid v =
      ({ st with values := st.values.set sid v }, dependentsOf st.nodes sid) := by
    rw [applyWrite, hchg]
    simp
  have hmem : nid ∈ dependentsOf st.nodes sid := (mem_dependentsOf _ _ _).mpr hdep
  have hnodup : (dependentsOf st.nodes sid).Nodup := nodup_dependentsOf _ _
  cases hD : dependentsOf st.nodes sid with
  | nil => exact absurd (hD ▸ hmem) (List.not_mem_nil nid)
  | cons d ds =>
      rw [hD] at hmem hnodup happ
      have hro1 : readerOnlySt { st with values := st.values.set sid v } = true := hro
      obtain ⟨hnext, hlog, _, _⟩ :=
        runRound_reader (d :: ds) { st with values := st.values.set sid v } hro1
      refine ⟨(runRound (d :: ds) { st with values := st.values.set sid v }).1,
        ?_, ?_⟩
      · rw [writeSig, happ]
        show flush (b + 1) (d :: ds) _ = _
        rw [flush, hnext]
        exact flush_nil b _
      · rw [hlog]
        show (st.runLog ++ _).count nid = _
        rw [List.count_append]
        congr 1
        have hfmem : nid ∈ (d :: ds).filter
            (fun i => alive { st with values := st.values.set sid v } i) :=
          List.mem_filter.mpr ⟨hmem, halive⟩
        exact List.count_eq_one_of_mem (hnodup.filter _) hfmem

end Reactive

namespace Reactive

/-- Witness for C1 on the concrete scenario where the one dependent reads
signal 0 twice in its single evaluation. -/
theorem single_write_single_rerun_witness :
    ∃ st', writeSig 1 0 5 c1St = .ok st' ∧
      st'.runLog.count 0 = c1St.runLog.count 0 + 1 :=
  single_write_single_rerun c1St 0 0 5 0 (by decide) (by decide)
    ⟨⟨.effect [.eval (.add (.readS 0) (.readS 0))], [0], false, none⟩, rfl,
      by decide⟩
    (by decide)

end Reactive

namespace Reactive

theorem evalExpr_untracked (vals : List Int) (e : Expr)
    (h : exprUntracked e = true) : (evalExpr vals e).2 = [] := by
  induction e with
  | lit n => rfl
  | readS sid => simp [exprUntracked] at h
  | peekS sid => rfl
  | add a b iha ihb =>
      rw [exprUntracked, Bool.and_eq_true] at h
      show (evalExpr vals a).2 ++ (evalExpr vals b).2 = []
      rw [iha h.1, ihb h.2]
      rfl
  | mul a b iha ihb =>
      rw [exprUntracked, Bool.and_eq_true] at h
      show (evalExpr vals a).2 ++ (evalExpr vals b).2 = []
      rw [iha h.1, ihb h.2]
      rfl

theorem updateNode_eq_self (l : List Node) : ∀ (i : Nat) (f : Node → Node),
    (∀ n, l.get? i = some n → f n = n) → updateNode l i f = l := by
  induction l with
  | nil => intro i f _; rfl
  | cons n rest ih =>
      intro i f h
      cases i with
      | zero =>
          rw [updateNode, h n rfl]
      | succ i =>
          rw [updateNode, ih i f fun m hm => h m hm]

theorem setNodeDeps_self (st : RState) (i : Nat) (n : Node)
    (hg : st.nodes.get? i = some n) (hd : n.deps = []) :
    setNodeDeps st i [] = st := by
  have h : updateNode st.nodes i (fun m => { m with deps := [] }) = st.nodes := by
    apply updateNode_eq_self
    intro m hm
    rw [hg] at hm
    cases hm
    cases n with
    | mk body deps stopped prev =>
        simp only at hd
        rw [hd]
  show { st with nodes := updateNode st.nodes i _ } = st
  rw [h]

end Reactive

namespace Reactive

theorem runOpsAux_peek (ops : List Op) :
    ∀ (st : RState) (nid : Nat) (dirty : List Nat) (n : Node),
    ops.all opUntracked = true →
    st.nodes.get? nid = some n → n.deps = [] →
    runOpsAux ops st nid dirty = (st, dirty) := by
  induction ops with
  | nil => intros; rfl
  | cons op rest ih =>
      intro st nid dirty n h hg hd
      rw [List.all_cons, Bool.and_eq_true] at h
      cases op with
      | write sid e => simp [opUntracked] at h
      | eval e =>
          rw [runOpsAux]
          have hds : (evalExpr st.values e).2 = [] :=
            evalExpr_untracked _ _ h.1
          have hnd : nodeDeps st nid = some [] := by
            rw [nodeDeps, hg, Option.map_some', hd]
          rw [hds, hnd]
          show runOpsAux rest (setNodeDeps st nid (dedupAppend [] [])) nid dirty = _
          rw [show dedupAppend [] [] = [] from rfl]
          rw [setNodeDeps_self st nid n hg hd]
          exact ih st nid dirty n h.2 hg hd

theorem createEffect_peek (st : RState) (ops : List Op) (b' : Nat)
    (hu : ops.all opUntracked = true) :
    createEffect b' ops st = .ok (c4After st ops) := by
  have hg : (st.nodes ++ [freshEffectNode ops]).get? st.nodes.length =
      some (freshEffectNode ops) := List.get?_concat_length _ _
  have hrn : runNode
      { st with nodes := st.nodes ++ [freshEffectNode ops] }
      st.nodes.length = (c4After st ops, []) := by
    rw [runNode_effect _ _ (freshEffectNode ops) ops hg rfl rfl]
    rw [setNodeDeps_self _ _ (freshEffectNode ops) hg rfl]
    rw [runOpsAux_peek ops _ _ _ (freshEffectNode ops) hu hg rfl]
    rfl
  rw [createEffect, hrn]
  exact flush_nil b' _

end Reactive

namespace Reactive

theorem not_mem_dependentsOf (nodes : List Node) (sid m : Nat) (n : Node)
    (hg : nodes.get? m = some n) (hd : n.deps = []) :
    m ∉ dependentsOf nodes sid := by
  intro hmem
  obtain ⟨n', hg', hc⟩ := (mem_dependentsOf nodes sid m).mp hmem
  rw [hg] at hg'
  cases hg'
  rw [hd] at hc
  simp at hc

theorem runOpsAux_no_dirty (ops : List Op) :
    ∀ (st : RState) (nid : Nat) (dirty : List Nat) (m : Nat) (n : Node),
    m ≠ nid → st.nodes.get? m = some n → n.deps = [] → m ∉ dirty →
    m ∉ (runOpsAux ops st nid dirty).2 := by
  induction ops with
  | nil =>
      intro st nid dirty m n _ _ _ hnin
      exact hnin
  | cons op rest ih =>
      intro st nid dirty m n hne hg hd hnin
      cases op with
      | eval e =>
          rw [runOpsAux]
          exact ih _ nid dirty m n hne
            (by rw [setNodeDeps_get?_ne _ _ _ _ hne]; exact hg) hd hnin
      | write sid e =>
          rw [runOpsAux]
          have hg1 : (applyWrite
              (setNodeDeps st nid
                (dedupAppend ((nodeDeps st nid).getD []) (evalExpr st.values e).2))
              sid (evalExpr st.values e).1).1.nodes.get? m = some n := by
            rw [applyWrite_nodes, setNodeDeps_get?_ne _ _ _ _ hne]
            exact hg
          apply ih _ nid _ m n hne hg1 hd
          rw [mem_dedupAppend]
          rintro (h1 | h1)
          · exact hnin h1
          · rcases applyWrite_dirty
                (setNodeDeps st nid
                  (dedupAppend ((nodeDeps st nid).getD []) (evalExpr st.values e).2))
                sid (evalExpr st.values e).1 with hw | hw
            · rw [hw] at h1
              exact List.not_mem_nil m h1
            · rw [hw] at h1
              refine not_mem_dependentsOf _ sid m n ?_ hd h1
              rw [setNodeDeps_get?_ne _ _ _ _ hne]
              exact hg

theorem runNode_no_rerun (st : RState) (j nid : Nat) (n : Node)
    (hne : j ≠ nid)
    (hg : st.nodes.get? nid = some n) (hd : n.deps = []) :
    (runNode st j).1.runLog.count nid = st.runLog.count nid ∧
    (runNode st j).1.nodes.get? nid = some n ∧
    nid ∉ (runNode st j).2 := by
  have hne' : nid ≠ j := fun h => hne h.symm
  have hcnt : ∀ log : List Nat, (log ++ [j]).count nid = log.count nid := by
    intro log
    rw [List.count_append]
    have h0 : nid ∉ [j] := by simp [hne']
    rw [List.count_eq_zero.mpr h0]
    rfl
  cases hgj : st.nodes.get? j with
  | none =>
      rw [runNode_none st j hgj]
      exact ⟨rfl, hg, List.not_mem_nil nid⟩
  | some nj =>
      by_cases hs : nj.stopped = true
      · rw [runNode_stopped st j nj hgj hs]
        exact ⟨rfl, hg, List.not_mem_nil nid⟩
      · have hs' : nj.stopped = false := by simpa using hs
        cases hb : nj.body with
        | effect ops =>
            rw [runNode_effect st j nj ops hgj hs' hb]
            have hgX : ({ setNodeDeps st j [] with
                runLog := st.runLog ++ [j] } : RState).nodes.get? nid = some n := by
              show (setNodeDeps st j []).nodes.get? nid = some n
              rw [setNodeDeps_get?_ne _ _ _ _ hne']
              exact hg
            refine ⟨?_, ?_, ?_⟩
            · rw [runOpsAux_runLog]
              exact hcnt st.runLog
            · rw [runOpsAux_get?_ne _ _ _ _ _ hne']
              exact hgX
            · exact runOpsAux_no_dirty ops _ j [] nid n hne' hgX hd
                (List.not_mem_nil nid)
        | watcher src =>
            rw [runNode_watcher st j nj src hgj hs' hb]
            refine ⟨hcnt st.runLog, ?_, List.not_mem_nil nid⟩
            show (updateNode (setNodeDeps st j (evalExpr st.values src).2).nodes j
                _).get? nid = some n
            rw [updateNode_get?, if_neg hne']
            rw [setNodeDeps_get?_ne _ _ _ _ hne']
            exact hg

theorem runRound_no_rerun (l : List Nat) :
    ∀ (st : RState) (nid : Nat) (n : Node),
    nid ∉ l → st.nodes.get? nid = some n → n.deps = [] →
    (runRound l st).1.runLog.count nid = st.runLog.count nid ∧
    (runRound l st).1.nodes.get? nid = some n ∧
    nid ∉ (runRound l st).2 := by
  induction l with
  | nil =>
      intro st nid n _ hg _
      exact ⟨rfl, hg, List.not_mem_nil nid⟩
  | cons j rest ih =>
      intro st nid n hnin hg hd
      have hne : j ≠ nid := fun h => hnin (h ▸ List.mem_cons_self j rest)
      obtain ⟨h1, h2, h3⟩ := runNode_no_rerun st j nid n hne hg hd
      have hnin' : nid ∉ rest := fun h => hnin (List.mem_cons_of_mem j h)
      obtain ⟨h4, h5, h6⟩ := ih (runNode st j).1 nid n hnin' h2 hd
      refine ⟨?_, h5, ?_⟩
      · show (runRound rest (runNode st j).1).1.runLog.count nid = _
        rw [h4, h1]
      · show nid ∉ dedupAppend (runNode st j).2 (runRound rest (runNode st j).1).2
        rw [mem_dedupAppend]
        rintro (h | h)
        · exact h3 h
        · exact h6 h

theorem flush_no_rerun (b : Nat) :
    ∀ (dirty : List Nat) (st st' : RState) (nid : Nat) (n : Node),
    nid ∉ dirty → st.nodes.get? nid = some n → n.deps = [] →
    flush b dirty st = .ok st' →
    st'.runLog.count nid = st.runLog.count nid := by
  induction b with
  | zero =>
      intro dirty st st' nid n hnin hg hd hf
      cases dirty with
      | nil =>
          cases hf
          rfl
      | cons d ds => cases hf
  | succ b ih =>
      intro dirty st st' nid n hnin hg hd hf
      cases dirty with
      | nil =>
          cases hf
          rfl
      | cons d ds =>
          rw [flush] at hf
          obtain ⟨h1, h2, h3⟩ := runRound_no_rerun (d :: ds) st nid n hnin hg hd
          rw [ih _ _ _ nid n h3 h2 hd hf, h1]

end Reactive

namespace Reactive

/-- C4: a computation that reads signals only through the untracked `peek`
registers no dependency edge (its dependency set stays empty after the
eager run at creation), and no subsequent write to any signal ever causes
it to re-run (its run-log count never grows). -/
theorem peek_registers_no_dependency (st : RState) (ops : List Op)
    (sid : Nat) (v : Int) (b b' : Nat)
    (hu : ops.all opUntracked = true) :
    createEffect b' ops st = .ok (c4After st ops) ∧
    nodeDeps (c4After st ops) st.nodes.length = some [] ∧
    ∀ st2, writeSig b sid v (c4After st ops) = .ok st2 →
      st2.runLog.count st.nodes.length =
        (c4After st ops).runLog.count st.nodes.length := by
  have hgA : (c4After st ops).nodes.get? st.nodes.length =
      some (freshEffectNode ops) := by
    show (st.nodes ++ [freshEffectNode ops]).get? st.nodes.length = _
    exact List.get?_concat_length _ _
  refine ⟨createEffect_peek st ops b' hu, ?_, ?_⟩
  · rw [nodeDeps, hgA]
    rfl
  · intro st2 hw
    rw [writeSig] at hw
    have hn1 : (applyWrite (c4After st ops) sid v).1.nodes.get?
        st.nodes.length = some (freshEffectNode ops) := by
      rw [applyWrite_nodes]
      exact hgA
    have hnin : st.nodes.length ∉ (applyWrite (c4After st ops) sid v).2 := by
      rcases applyWrite_dirty (c4After st ops) sid v with h | h
      · rw [h]
        exact List.not_mem_nil _
      · rw [h]
        exact not_mem_dependentsOf _ sid _ (freshEffectNode ops) hgA rfl
    have hc := flush_no_rerun b _ _ _ _ (freshEffectNode ops) hnin hn1 rfl hw
    rw [hc, applyWrite_runLog]

/-- Witness for C4: a peek-only effect over the signal holding 0; a write
of 5 to that signal never re-runs it. -/
theorem peek_registers_no_dependency_witness :
    createEffect 1 [.eval (.peekS 0)] c3Init =
      .ok (c4After c3Init [.eval (.peekS 0)]) ∧
    nodeDeps (c4After c3Init [.eval (.peekS 0)]) c3Init.nodes.length =
      some [] ∧
    ∀ st2, writeSig 1 0 5 (c4After c3Init [.eval (.peekS 0)]) = .ok st2 →
      st2.runLog.count c3Init.nodes.length =
        (c4After c3Init [.eval (.peekS 0)]).runLog.count c3Init.nodes.length :=
  peek_registers_no_dependency c3Init [.eval (.peekS 0)] 0 5 1 1 (by decide)

end Reactive

namespace Reactive

theorem cbCount_append_ne (wid j : Nat) (x : Int) (y : Option Int)
    (log : List (Nat × Int × Option Int)) (h : j ≠ wid) :
    cbCount wid (log ++ [(j, x, y)]) = cbCount wid log := by
  rw [cbCount, cbCount, List.filter_append, List.length_append]
  have h0 : List.filter (fun e => e.1 == wid) [(j, x, y)] = [] := by
    simp [h]
  rw [h0]
  rfl

theorem stoppedAt_updateNode_sig (st : RState) (l : List Node) (i wid : Nat)
    (f : Node → Node) (hf : ∀ n, nodeSig (f n) = nodeSig n)
    (h : stoppedAt { st with nodes := l } wid = true) :
    stoppedAt { st with nodes := updateNode l i f } wid = true := by
  simp only [stoppedAt] at h ⊢
  rw [updateNode_get?]
  by_cases he : wid = i
  · rw [if_pos he]
    subst he
    cases hg : l.get? wid with
    | none =>
        rw [hg] at h
        simp at h
    | some n =>
        rw [hg] at h
        have hsig := hf n
        rw [nodeSig, nodeSig, Prod.mk.injEq] at hsig
        simp only [Option.map_some', Option.getD_some] at h ⊢
        rw [hsig.2]
        exact h
  · rw [if_neg he]
    exact h

theorem runNode_no_cb (st : RState) (j wid : Nat)
    (hw : stoppedAt st wid = true) :
    cbCount wid (runNode st j).1.cbLog = cbCount wid st.cbLog ∧
    stoppedAt (runNode st j).1 wid = true := by
  cases hgj : st.nodes.get? j with
  | none =>
      rw [runNode_none st j hgj]
      exact ⟨rfl, hw⟩
  | some nj =>
      by_cases hs : nj.stopped = true
      · rw [runNode_stopped st j nj hgj hs]
        exact ⟨rfl, hw⟩
      · have hs' : nj.stopped = false := by simpa using hs
        have hne : j ≠ wid := by
          intro he
          subst he
          simp only [stoppedAt, hgj, Option.map_some', Option.getD_some] at hw
          rw [hs'] at hw
          cases hw
        cases hb : nj.body with
        | effect ops =>
            rw [runNode_effect st j nj ops hgj hs' hb]
            constructor
            · rw [runOpsAux_cbLog]
              rfl
            · have hsig := runOpsAux_sig ops
                { setNodeDeps st j [] with runLog := st.runLog ++ [j] } j [] wid
              rw [stoppedAt_eq_of_sig _ _ wid hsig]
              exact stoppedAt_updateNode_sig st st.nodes j wid
                (fun n => { n with deps := [] }) (fun n => rfl) hw
        | watcher src =>
            rw [runNode_watcher st j nj src hgj hs' hb]
            constructor
            · exact cbCount_append_ne wid j _ _ st.cbLog hne
            · exact stoppedAt_updateNode_sig st
                (updateNode st.nodes j fun n =>
                  { n with deps := (evalExpr st.values src).2 })
                j wid
                (fun m => { m with prev := some (evalExpr st.values src).1 })
                (fun n => rfl)
                (stoppedAt_updateNode_sig st st.nodes j wid
                  (fun n => { n with deps := (evalExpr st.values src).2 })
                  (fun n => rfl) hw)

theorem runRound_no_cb (l : List Nat) : ∀ (st : RState) (wid : Nat),
    stoppedAt st wid = true →
    cbCount wid (runRound l st).1.cbLog = cbCount wid st.cbLog ∧
    stoppedAt (runRound l st).1 wid = true := by
  induction l with
  | nil => intro st wid hw; exact ⟨rfl, hw⟩
  | cons j rest ih =>
      intro st wid hw
      obtain ⟨h1, h2⟩ := runNode_no_cb st j wid hw
      obtain ⟨h3, h4⟩ := ih (runNode st j).1 wid h2
      refine ⟨?_, h4⟩
      show cbCount wid (runRound rest (runNode st j).1).1.cbLog = _
      rw [h3, h1]

theorem flush_no_cb (b : Nat) :
    ∀ (dirty : List Nat) (st st' : RState) (wid : Nat),
    stoppedAt st wid = true → flush b dirty st = .ok st' →
    cbCount wid st'.cbLog = cbCount wid st.cbLog := by
  induction b with
  | zero =>
      intro dirty st st' wid hw hf
      cases dirty with
      | nil => cases hf; rfl
      | cons d ds => cases hf
  | succ b ih =>
      intro dirty st st' wid hw hf
      cases dirty with
      | nil => cases hf; rfl
      | cons d ds =>
          rw [flush] at hf
          obtain ⟨h1, h2⟩ := runRound_no_cb (d :: ds) st wid hw
          rw [ih _ _ _ wid h2 hf, h1]

theorem updateNode_idem (l : List Node) : ∀ (i : Nat) (f : Node → Node),
    (∀ n, f (f n) = f n) →
    updateNode (updateNode l i f) i f = updateNode l i f := by
  induction l with
  | nil => intro i f _; rfl
  | cons n rest ih =>
      intro i f hf
      cases i with
      | zero =>
          show f (f n) :: rest = f n :: rest
          rw [hf n]
      | succ i =>
          show n :: updateNode (updateNode rest i f) i f = n :: updateNode rest i f
          rw [ih i f hf]

/-- C7: `stop()` is idempotent: stopping a watcher twice yields exactly the
state of stopping it once; and once a watcher is stopped, flushing ANY
in-flight dirty queue of the current batch delivers no callback to it:
cancellation is checked at delivery time, not only at scheduling time. -/
theorem stopWatch_idempotent_no_cb :
    (∀ (st : RState) (wid : Nat),
        stopWatch wid (stopWatch wid st) = stopWatch wid st) ∧
    (∀ (b wid : Nat) (dirty : List Nat) (st st' : RState),
        stoppedAt st wid = true → flush b dirty st = .ok st' →
        cbCount wid st'.cbLog = cbCount wid st.cbLog) := by
  constructor
  · intro st wid
    simp only [stopWatch]
    rw [updateNode_idem st.nodes wid (fun n => { n with stopped := true })
      (fun n => rfl)]
  · intro b wid dirty st st' hw hf
    exact flush_no_cb b dirty st st' wid hw hf

/-- Witness for C7: watcher 0 is stopped while already scheduled in the
dirty queue next to the live watcher 1; the flush delivers to 1 only. -/
theorem stopWatch_idempotent_no_cb_witness :
    cbCount 0 c7After.cbLog = cbCount 0 c7St.cbLog :=
  stopWatch_idempotent_no_cb.2 1 0 [0, 1] c7St c7After rfl rfl

end Reactive

namespace Reactive

theorem getD_set_ne (l : List Int) (i j : Nat) (a : Int) (h : i ≠ j) :
    (l.set i a).getD j 0 = l.getD j 0 := by
  simp [List.getD, List.getElem?_set_ne h]

theorem applyWrite_cases (st : RState) (sid : Nat) (v : Int) :
    applyWrite st sid v = (st, []) ∨
    ((st.values.getD sid 0 == v) = false ∧
      applyWrite st sid v =
        ({ st with values := st.values.set sid v },
          dependentsOf st.nodes sid)) := by
  rw [applyWrite]
  by_cases h : (st.values.getD sid 0 == v) = true
  · rw [if_pos h]
    exact Or.inl rfl
  · have h' : (st.values.getD sid 0 == v) = false := by simpa using h
    rw [if_neg h]
    exact Or.inr ⟨h', rfl⟩

theorem batchAcc_nodes (ws : List (Nat × Int)) : ∀ (st : RState) (q : List Nat),
    (ws.foldl batchStep (st, q)).1.nodes = st.nodes := by
  induction ws with
  | nil => intros; rfl
  | cons w rest ih =>
      intro st q
      rw [List.foldl_cons]
      show (rest.foldl batchStep
        ((applyWrite st w.1 w.2).1,
          dedupAppend q (applyWrite st w.1 w.2).2)).1.nodes = st.nodes
      rw [ih, applyWrite_nodes]

theorem batchAcc_runLog (ws : List (Nat × Int)) : ∀ (st : RState) (q : List Nat),
    (ws.foldl batchStep (st, q)).1.runLog = st.runLog := by
  induction ws with
  | nil => intros; rfl
  | cons w rest ih =>
      intro st q
      rw [List.foldl_cons]
      show (rest.foldl batchStep
        ((applyWrite st w.1 w.2).1,
          dedupAppend q (applyWrite st w.1 w.2).2)).1.runLog = st.runLog
      rw [ih, applyWrite_runLog]

theorem batchAcc_nodup (ws : List (Nat × Int)) : ∀ (st : RState) (q : List Nat),
    q.Nodup → (ws.foldl batchStep (st, q)).2.Nodup := by
  induction ws with
  | nil => intro st q hq; exact hq
  | cons w rest ih =>
      intro st q hq
      rw [List.foldl_cons]
      show (rest.foldl batchStep
        ((applyWrite st w.1 w.2).1,
          dedupAppend q (applyWrite st w.1 w.2).2)).2.Nodup
      exact ih _ _ (nodup_dedupAppend _ q hq)

theorem batchAcc_mono (ws : List (Nat × Int)) : ∀ (st : RState) (q : List Nat)
    (x : Nat), x ∈ q → x ∈ (ws.foldl batchStep (st, q)).2 := by
  induction ws with
  | nil => intro st q x hx; exact hx
  | cons w rest ih =>
      intro st q x hx
      rw [List.foldl_cons]
      show x ∈ (rest.foldl batchStep
        ((applyWrite st w.1 w.2).1,
          dedupAppend q (applyWrite st w.1 w.2).2)).2
      exact ih _ _ x ((mem_dedupAppend _ q x).mpr (Or.inl hx))

theorem batch_dirties (ws : List (Nat × Int)) :
    ∀ (st : RState) (q : List Nat) (sid nid : Nat) (n : Node),
    st.nodes.get? nid = some n → n.deps.contains sid = true →
    (ws.foldl batchStep (st, q)).1.values.getD sid 0 ≠ st.values.getD sid 0 →
    nid ∈ (ws.foldl batchStep (st, q)).2 := by
  induction ws with
  | nil =>
      intro st q sid nid n _ _ hch
      exact absurd rfl hch
  | cons w rest ih =>
      intro st q sid nid n hg hc hch
      rw [List.foldl_cons] at hch ⊢
      have hstep : batchStep (st, q) w =
          ((applyWrite st w.1 w.2).1,
            dedupAppend q (applyWrite st w.1 w.2).2) := rfl
      rw [hstep] at hch ⊢
      rcases applyWrite_cases st w.1 w.2 with hw | ⟨hbeq, hw⟩
      · rw [hw] at hch ⊢
        show nid ∈ (rest.foldl batchStep (st, dedupAppend q [])).2
        refine ih st _ sid nid n hg hc ?_
        exact hch
      · rw [hw] at hch ⊢
        by_cases hsid : w.1 = sid
        · subst hsid
          have hmem : nid ∈ dependentsOf st.nodes w.1 :=
            (mem_dependentsOf st.nodes w.1 nid).mpr ⟨n, hg, hc⟩
          show nid ∈ (rest.foldl batchStep
            ({ st with values := st.values.set w.1 w.2 },
              dedupAppend q (dependentsOf st.nodes w.1))).2
          refine batchAcc_mono rest _ _ nid ?_
          exact (mem_dedupAppend _ q nid).mpr (Or.inr hmem)
        · have hsame : ({ st with values := st.values.set w.1 w.2 } :
              RState).values.getD sid 0 = st.values.getD sid 0 :=
            getD_set_ne st.values w.1 sid w.2 hsid
          show nid ∈ (rest.foldl batchStep
            ({ st with values := st.values.set w.1 w.2 },
              dedupAppend q (dependentsOf st.nodes w.1))).2
          refine ih _ _ sid nid n hg hc ?_
          rw [hsame]
          exact hch

end Reactive

namespace Reactive

/-- C2: batch glitch-freedom, universally: for EVERY reader-only state,
EVERY batch of writes, and EVERY computation C depending on signals A and B
the batch changed, C runs exactly once after the batch closes; EVERY
computation runs at most once per batch regardless of how many of the
batch's writes touched it; and the flush leaves the store exactly at the
all-writes-applied values, so the single run observed the new values of
both A and B, never a partially-updated intermediate state. -/
theorem batch_runs_once_glitch_free (st : RState) (ws : List (Nat × Int))
    (b nid sidA sidB : Nat) (n : Node)
    (hro : readerOnlySt st = true)
    (halive : alive st nid = true)
    (hg : st.nodes.get? nid = some n)
    (hA : n.deps.contains sidA = true)
    (hB : n.deps.contains sidB = true)
    (hchg : (ws.foldl batchStep (st, ([] : List Nat))).1.values.getD sidA 0 ≠
      st.values.getD sidA 0) :
    ∃ st', batchWrites (b + 1) ws st = .ok st' ∧
      st'.runLog.count nid = st.runLog.count nid + 1 ∧
      (∀ j, st'.runLog.count j ≤ st.runLog.count j + 1) ∧
      st'.values = (ws.foldl batchStep (st, ([] : List Nat))).1.values := by
  have hnodes := batchAcc_nodes ws st []
  have hrlog := batchAcc_runLog ws st []
  have hnodup := batchAcc_nodup ws st [] List.nodup_nil
  have hmem : nid ∈ (ws.foldl batchStep (st, ([] : List Nat))).2 :=
    batch_dirties ws st [] sidA nid n hg hA hchg
  have hro1 : readerOnlySt (ws.foldl batchStep (st, ([] : List Nat))).1 =
      true := by
    show ((ws.foldl batchStep (st, ([] : List Nat))).1.nodes.all fun m =>
      bodyReader m.body) = true
    rw [hnodes]
    exact hro
  have halive1 : ∀ j,
      alive (ws.foldl batchStep (st, ([] : List Nat))).1 j = alive st j := by
    intro j
    simp only [alive]
    rw [hnodes]
  cases hq : (ws.foldl batchStep (st, ([] : List Nat))).2 with
  | nil =>
      rw [hq] at hmem
      exact absurd hmem (List.not_mem_nil nid)
  | cons d ds =>
      obtain ⟨hnext, hlog, _, hvals⟩ :=
        runRound_reader (d :: ds) (ws.foldl batchStep (st, ([] : List Nat))).1
          hro1
      have hnodup' : (d :: ds).Nodup := hq ▸ hnodup
      have hmem' : nid ∈ (d :: ds) := hq ▸ hmem
      refine ⟨(runRound (d :: ds)
        (ws.foldl batchStep (st, ([] : List Nat))).1).1, ?_, ?_, ?_, ?_⟩
      · show flush (b + 1) (ws.foldl batchStep (st, ([] : List Nat))).2
          (ws.foldl batchStep (st, ([] : List Nat))).1 = _
        rw [hq, flush, hnext]
        exact flush_nil b _
      · rw [hlog, hrlog, List.count_append]
        have hone : ((d :: ds).filter fun i =>
            alive (ws.foldl batchStep (st, ([] : List Nat))).1 i).count nid =
            1 := by
          refine List.count_eq_one_of_mem (hnodup'.filter _) ?_
          refine List.mem_filter.mpr ⟨hmem', ?_⟩
          rw [halive1 nid]
          exact halive
        rw [hone]
      · intro j
        rw [hlog, hrlog, List.count_append]
        exact Nat.add_le_add_left
          (List.nodup_iff_count_le_one.mp (hnodup'.filter _) j) _
      · rw [hvals]

/-- Witness for C2: a two-write batch over the reader state `c2RSt`: C runs
exactly once, every node at most once, and the final store holds both new
values 10 and 20. -/
theorem batch_runs_once_glitch_free_witness :
    ∃ st', batchWrites 1 [(0, 10), (1, 20)] c2RSt = .ok st' ∧
      st'.runLog.count 0 = c2RSt.runLog.count 0 + 1 ∧
      (∀ j, st'.runLog.count j ≤ c2RSt.runLog.count j + 1) ∧
      st'.values =
        ([(0, 10), (1, 20)].foldl batchStep (c2RSt, ([] : List Nat))).1.values :=
  batch_runs_once_glitch_free c2RSt [(0, 10), (1, 20)] 0 0 0 1
    ⟨.effect [.eval (.add (.readS 0) (.readS 1))], [0, 1], false, none⟩
    (by decide) (by decide) rfl (by decide) (by decide) (by decide)

end Reactive
